import Mathlib

/-!
A verification development for a small Scheme-like interpreter written in Go
(`scheme.go`).  The Go source is shallowly embedded: the Go interfaces `val`
and `seq` become the mutual inductive types `val` and `seqv`; Go `int64`
arithmetic becomes `Int` together with an explicit two's-complement
wrap-around (`wrap64`); every Go `panic` site becomes an explicit error
constructor (`readErr.panicEOS` and the `evalErr` constructors), so that an
aborting execution stays distinguishable from a returned error value; the
input string is modelled as a list of characters read one position at a
time, exactly as the Go code indexes `s[pos]`.
-/

abbrev Str := List Char

/-- unicode.IsSpace as the Go code applies it to a single byte
(`rune(ls.s[ls.pos])`): tab (9) through carriage return (13), space (32),
next-line (133) and no-break space (160). -/
def goIsSpace (c : Char) : Bool :=
  (9 ≤ c.toNat && c.toNat ≤ 13) || c.toNat = 32 || c.toNat = 133 || c.toNat = 160

/-- the character class scanned by the atom branch of `read`:
neither whitespace nor a parenthesis. -/
def isAtomChar (c : Char) : Bool :=
  !goIsSpace c && !(c = '(') && !(c = ')')

def isDigitChar (c : Char) : Bool := 48 ≤ c.toNat && c.toNat ≤ 57

def digitsToNat (s : Str) : Nat :=
  s.foldl (fun a c => a * 10 + (c.toNat - 48)) 0

/-- strconv.ParseInt(s, 10, 64): an optional single sign, then a nonempty
run of decimal digits, the value required to fit in int64.  Every failure
mode (empty string, stray character, out of range) is collapsed to `none`,
since the Go code only tests `err != nil`. -/
def goParseInt64 (s : Str) : Option Int :=
  match s with
  | [] => none
  | c :: rest =>
    let neg : Bool := c = '-'
    let digits : Str := if c = '-' || c = '+' then rest else s
    if digits = [] then none
    else if digits.all isDigitChar then
      let n := digitsToNat digits
      if neg then (if n ≤ 2 ^ 63 then some (-(n : Int)) else none)
      else (if n ≤ 2 ^ 63 - 1 then some (n : Int) else none)
    else none

def digitChar (d : Nat) : Char := Char.ofNat (48 + d)

def natDigitsAux : Nat → Nat → Str
  | 0, _ => []
  | fuel + 1, n =>
    if n < 10 then [digitChar n]
    else natDigitsAux fuel (n / 10) ++ [digitChar (n % 10)]

def natDigits (n : Nat) : Str := natDigitsAux (n + 1) n

/-- fmt.Sprintf("%v", i) for an int64: decimal digits, with '-' for a
negative value. -/
def prInt (i : Int) : Str :=
  if i < 0 then '-' :: natDigits i.natAbs else natDigits i.natAbs

/-- the two native operations the repository installs as builtins
(`builtinPlus` and `builtinMul`); the Go field `builtin.f` could hold any
function, but the program constructs exactly these two. -/
inductive bfun where
  | plus
  | mul
deriving DecidableEq

mutual
/-- the Go interface `val`: number, boolean, symbol, a sequence, or a
builtin function. -/
inductive val where
  | number (i : Int)
  | boolean (b : Bool)
  | symbol (name : Str)
  | sq (s : seqv)
  | builtin (name : Str) (f : bfun)
/-- the Go interface `seq`, implemented by `empty` and `*cons`. -/
inductive seqv where
  | empty
  | cons (car : val) (cdr : seqv)
end

deriving instance DecidableEq for val
deriving instance DecidableEq for seqv

mutual
/-- the `pr` methods of the `val` variants. -/
def val.pr : val → Str
  | .number i => prInt i
  | .boolean b => if b then "#t".toList else "#f".toList
  | .symbol n => n
  | .sq s => seqv.pr s
  | .builtin n _ => "#<function:".toList ++ n ++ ">".toList
/-- the methods `empty.pr` and `cons.pr`: a parenthesized, space-separated rendering. -/
def seqv.pr : seqv → Str
  | .empty => "()".toList
  | .cons a d => '(' :: (val.pr a ++ (seqv.prElems d ++ [')']))
/-- the loop inside `cons.pr`: each remaining element preceded by a space. -/
def seqv.prElems : seqv → Str
  | .empty => []
  | .cons a d => ' ' :: (val.pr a ++ seqv.prElems d)
end

/-- the text strictly between the opening parenthesis and the end of the
printed form of a sequence, i.e. exactly what `readSeq` is asked to parse. -/
def seqv.prInner : seqv → Str
  | .empty => [')']
  | .cons a d => val.pr a ++ (seqv.prElems d ++ [')'])

theorem seqv.pr_eq_inner (s : seqv) : seqv.pr s = '(' :: seqv.prInner s := by
  cases s <;> rfl

example : val.pr (.sq (.cons (.number 1) (.cons (.number 23) .empty))) = "(1 23)".toList := by decide
example : goParseInt64 "1-2".toList = none := by decide
example : goParseInt64 "-45".toList = some (-45) := by decide
example : goParseInt64 "+45".toList = some 45 := by decide
example : goParseInt64 "9223372036854775808".toList = none := by decide

/-- the Go `lexState`: the whole source string together with a byte offset. -/
structure lexState where
  s : Str
  pos : Nat
deriving DecidableEq

def lexState.isEOS (ls : lexState) : Bool := ls.s.length ≤ ls.pos

def lexState.advance (ls : lexState) : lexState := ⟨ls.s, ls.pos + 1⟩

/-- the method `ls.current()`, with the out-of-range panic visible as `none` (the Go
method panics "Advancing beyond EOS" exactly when the position is past the
end). -/
def lexState.curr (ls : lexState) : Option Char := ls.s[ls.pos]?

/-- the loop inside `lexState.skipWhile`, recursing over the characters that
remain from a given position. -/
def skipWhileAux (p : Char → Bool) : Str → Nat → Nat
  | [], pos => pos
  | c :: rest, pos => if p c then skipWhileAux p rest (pos + 1) else pos

def lexState.skipWhile (ls : lexState) (p : Char → Bool) : lexState :=
  ⟨ls.s, skipWhileAux p (ls.s.drop ls.pos) ls.pos⟩

def lexState.skipWS (ls : lexState) : lexState := ls.skipWhile goIsSpace

/-- the slice function: `getToken start stop` is the slice `start.s[start.pos:stop.pos]`. -/
def getToken (start stop : lexState) : Str :=
  (start.s.drop start.pos).take (stop.pos - start.pos)

/-- the outcomes of `read`.  The first three are the error values the Go
reader returns ("EOS", "No boolean", "unexpected `)`).  `panicEOS` models
the panic "Advancing beyond EOS" raised by `current`, i.e. a process abort
rather than a returned error.  `fuelOut` is an artifact of the fuel
parameter used to express the recursion and is unreachable at the fuel
supplied by `read`. -/
inductive readErr where
  | eos
  | noBoolean
  | unexpectedClose
  | panicEOS
  | fuelOut
deriving DecidableEq

mutual
/-- the method `lexState.read`, fuelled.  Mirrors the Go method branch for branch:
skip whitespace; end of input is the "EOS" error; '#' must be followed by
't' or 'f' (a missing character is "EOS", a wrong one "No boolean");
'(' hands off to `readSeq`; a stray ')' is "unexpected `)`"; otherwise the
maximal run of atom characters is parsed as an int64 if possible and is a
symbol otherwise. -/
def readF : Nat → lexState → Except readErr (val × lexState)
  | 0, _ => .error .fuelOut
  | fuel + 1, ls0 =>
    let ls := ls0.skipWS
    match ls.curr with
    | none => .error .eos
    | some c =>
      if c = '#' then
        let ls1 := ls.advance
        match ls1.curr with
        | none => .error .eos
        | some c1 =>
          let ls2 := ls1.advance
          if c1 = 't' then .ok (.boolean true, ls2)
          else if c1 = 'f' then .ok (.boolean false, ls2)
          else .error .noBoolean
      else if c = '(' then
        match readSeqF fuel ls.advance with
        | .ok (s, ls') => .ok (.sq s, ls')
        | .error e => .error e
      else if c = ')' then .error .unexpectedClose
      else
        let els := ls.skipWhile isAtomChar
        let tok := getToken ls els
        match goParseInt64 tok with
        | some n => .ok (.number n, els)
        | none => .ok (.symbol tok, els)

/-- the method `lexState.readSeq`, fuelled.  Mirrors the Go method: skip whitespace,
then call `current()` with no end-of-input guard — at end of input this is
the "Advancing beyond EOS" panic, modelled by `panicEOS`; a ')' closes the
sequence; otherwise one element is read and the rest of the sequence is
read recursively. -/
def readSeqF : Nat → lexState → Except readErr (seqv × lexState)
  | 0, _ => .error .fuelOut
  | fuel + 1, ls0 =>
    let ls := ls0.skipWS
    match ls.curr with
    | none => .error .panicEOS
    | some c =>
      if c = ')' then .ok (.empty, ls.advance)
      else
        match readF fuel ls with
        | .error e => .error e
        | .ok (car, ls1) =>
          match readSeqF fuel ls1 with
          | .error e => .error e
          | .ok (cdr, ls2) => .ok (.cons car cdr, ls2)
end

/-- the top-level `read`: parse the first form of the string and discard
the final cursor.  The fuel `2 * length + 4` is enough for every call chain
the reader can make on the string (each `read`/`readSeq` call either
consumes a character or immediately delegates to a call that does). -/
def readL (s : Str) : Except readErr val :=
  match readF (2 * s.length + 4) ⟨s, 0⟩ with
  | .ok (v, _) => .ok v
  | .error e => .error e

def read (s : String) : Except readErr val := readL s.toList

deriving instance DecidableEq for Except

example : read "  123  " = .ok (.number 123) := by decide
example : read "1-2" = .ok (.symbol "1-2".toList) := by decide
example : read "  #t" = .ok (.boolean true) := by decide
example : read "  #f" = .ok (.boolean false) := by decide
example : read "  12(  " = .ok (.number 12) := by decide
example : read "(+ 1 2 () )" =
    .ok (.sq (.cons (.symbol "+".toList) (.cons (.number 1) (.cons (.number 2)
      (.cons (.sq .empty) .empty))))) := by decide
example : read "(1 2" = .error .panicEOS := by decide
example : read "#" = .error .eos := by decide
example : read "#x" = .error .noBoolean := by decide
example : read "" = .error .eos := by decide
example : read ")" = .error .unexpectedClose := by decide

/-- the fatal (panicking) conditions of the evaluator tier, one constructor
per distinct panic site of the Go program. -/
inductive evalErr where
  | unbound (name : Str)
  | cannotApply (v : val)
  | emptyAccess
  | tooMany
  | typeMismatch (v : val)
  | cannotEval (v : val)
  | incomparableFunctions
deriving DecidableEq

/-- truthiness, `isTrue`: every value is truthy except `boolean false`. -/
def isTrue : val → Bool
  | .boolean b => b
  | _ => true

/-- two's-complement wrap-around of Go int64 arithmetic: reduce modulo
2^64 into the interval [-2^63, 2^63). -/
def wrap64 (x : Int) : Int := (x + 2 ^ 63) % 2 ^ 64 - 2 ^ 63

/-- the loop of `builtinPlus`: fold the arguments into the accumulator with
wrapping int64 addition, panicking on the first non-number. -/
def builtinPlusAux (sum : Int) : List val → Except evalErr val
  | [] => .ok (.number sum)
  | a :: rest =>
    match a with
    | .number n => builtinPlusAux (wrap64 (sum + n)) rest
    | _ => .error (.typeMismatch a)

def builtinPlus (args : List val) : Except evalErr val := builtinPlusAux 0 args

/-- the loop of `builtinMul`: fold with wrapping int64 multiplication. -/
def builtinMulAux (prod : Int) : List val → Except evalErr val
  | [] => .ok (.number prod)
  | a :: rest =>
    match a with
    | .number n => builtinMulAux (wrap64 (prod * n)) rest
    | _ => .error (.typeMismatch a)

def builtinMul (args : List val) : Except evalErr val := builtinMulAux 1 args

/-- the method `builtin.call`: dispatch to the wrapped native operation. -/
def callBuiltin : bfun → List val → Except evalErr val
  | .plus, args => builtinPlus args
  | .mul, args => builtinMul args

/-- the `env` interface: a name-to-value lookup that can fail. -/
def Env := Str → Option val

/-- the helper `get1`: the single operand of a `quote` form.  `s.first()` on an empty
sequence panics ("first called on empty" — `emptyAccess`); a non-empty rest
panics ("Too many items in seq" — `tooMany`). -/
def get1 : seqv → Except evalErr val
  | .empty => .error .emptyAccess
  | .cons v rest =>
    match rest with
    | .empty => .ok v
    | .cons _ _ => .error .tooMany

/-- the helper `get3`: the three operands of an `if` form.  Each of the three
`first()` calls panics with `emptyAccess` if its sequence is already empty;
a non-empty remainder after the third panics with `tooMany`. -/
def get3 : seqv → Except evalErr (val × val × val)
  | .empty => .error .emptyAccess
  | .cons v1 s1 =>
    match s1 with
    | .empty => .error .emptyAccess
    | .cons v2 s2 =>
      match s2 with
      | .empty => .error .emptyAccess
      | .cons v3 s3 =>
        match s3 with
        | .empty => .ok (v1, v2, v3)
        | .cons _ _ => .error .tooMany

mutual
/-- the evaluator `eval`.  Branch for branch as in the Go switch: booleans and numbers
are self-evaluating; a symbol is looked up ("unbound" panic on failure); a
sequence dispatches on its first element — `first()` on the empty sequence
panics (`emptyAccess`); a head symbol "if" takes exactly three operands and
evaluates the chosen branch only; a head symbol "quote" takes exactly one
operand, returned unevaluated; any other head is an application: the head
is evaluated (for a head symbol this is the inlined lookup, exactly
`eval(e, head)` on a symbol), the result must be a function
(`cannotApply`), the argument forms are evaluated left to right and the
function is called.  A function value reaching `eval` directly falls to the
default case and panics ("cannot eval"). -/
def eval (e : Env) (v : val) : Except evalErr val :=
  match v with
  | .boolean b => .ok (.boolean b)
  | .number i => .ok (.number i)
  | .symbol n =>
    match e n with
    | some v => .ok v
    | none => .error (.unbound n)
  | .sq .empty => .error .emptyAccess
  | .sq (.cons (.symbol n) tail) =>
      if n = "if".toList then
        match tail with
        | .cons c (.cons a (.cons b .empty)) =>
          match eval e c with
          | .error er => .error er
          | .ok cv => if isTrue cv then eval e a else eval e b
        | .cons _ (.cons _ (.cons _ (.cons _ _))) => .error .tooMany
        | _ => .error .emptyAccess
      else if n = "quote".toList then
        match tail with
        | .cons x .empty => .ok x
        | .cons _ (.cons _ _) => .error .tooMany
        | .empty => .error .emptyAccess
      else
        match e n with
        | none => .error (.unbound n)
        | some vf =>
          match vf with
          | .builtin _ f =>
            match evalArgs e tail with
            | .error er => .error er
            | .ok args => callBuiltin f args
          | _ => .error (.cannotApply vf)
  | .sq (.cons head tail) =>
      match eval e head with
      | .error er => .error er
      | .ok vf =>
        match vf with
        | .builtin _ f =>
          match evalArgs e tail with
          | .error er => .error er
          | .ok args => callBuiltin f args
        | _ => .error (.cannotApply vf)
  | .builtin n f => .error (.cannotEval (.builtin n f))
termination_by structural v

/-- the argument loop of `evalApplication`: evaluate each remaining form
left to right, collecting the results in order. -/
def evalArgs (e : Env) (s : seqv) : Except evalErr (List val) :=
  match s with
  | .empty => .ok []
  | .cons a r =>
    match eval e a with
    | .error er => .error er
    | .ok x =>
      match evalArgs e r with
      | .error er => .error er
      | .ok xs => .ok (x :: xs)
termination_by structural s
end

/-- the function `evalApplication` as the standalone Go function: evaluate the operator
form, require a function, evaluate the argument forms, call. -/
def evalApplication (e : Env) (fform : val) (argForms : seqv) : Except evalErr val :=
  match eval e fform with
  | .error er => .error er
  | .ok vf =>
    match vf with
    | .builtin _ f =>
      match evalArgs e argForms with
      | .error er => .error er
      | .ok args => callBuiltin f args
    | _ => .error (.cannotApply vf)


mutual
/-- the `equal` methods, dispatched on the receiver (left operand) as Go
interface dispatch does.  `builtin.equal` panics unconditionally
("you should not compare functions!"), whatever the right operand is. -/
def val.equal : val → val → Except evalErr Bool
  | .number n, o =>
    match o with
    | .number m => .ok (n == m)
    | _ => .ok false
  | .boolean b, o =>
    match o with
    | .boolean b2 => .ok (b == b2)
    | _ => .ok false
  | .symbol n, o =>
    match o with
    | .symbol n2 => .ok (n == n2)
    | _ => .ok false
  | .sq s, o => seqv.equal s o
  | .builtin _ _, _ => .error .incomparableFunctions

/-- the methods `empty.equal` and `cons.equal`: `empty` equals exactly `empty`; a cons
equals a cons with an equal car and an equal cdr, the cdr comparison
short-circuited behind the car comparison as by Go's `&&`. -/
def seqv.equal : seqv → val → Except evalErr Bool
  | .empty, o =>
    match o with
    | .sq .empty => .ok true
    | _ => .ok false
  | .cons a d, o =>
    match o with
    | .sq (.cons a2 d2) =>
      match val.equal a a2 with
      | .error er => .error er
      | .ok b => if b then seqv.equal d (.sq d2) else .ok false
    | _ => .ok false
end

/-- the environment built by `evalTest`: `one` bound to 1 and the two
builtins bound to their names. -/
def testEnv : Env := fun n =>
  if n = "one".toList then some (.number 1)
  else if n = "+".toList then some (.builtin "+".toList .plus)
  else if n = "*".toList then some (.builtin "*".toList .mul)
  else none

example : (read "123").map (eval testEnv) = .ok (.ok (.number 123)) := by decide
example : (read "#t").map (eval testEnv) = .ok (.ok (.boolean true)) := by decide
example : (read "(if #f 1 2)").map (eval testEnv) = .ok (.ok (.number 2)) := by decide
example : (read "(if 123 1 2)").map (eval testEnv) = .ok (.ok (.number 1)) := by decide
example : (read "(if 123 (quote true) (quote false))").map (eval testEnv) =
    .ok (.ok (.symbol "true".toList)) := by decide
example : (read "one").map (eval testEnv) = .ok (.ok (.number 1)) := by decide
example : (read "(+ 1 2 3)").map (eval testEnv) = .ok (.ok (.number 6)) := by decide
example : (read "(* 3 4)").map (eval testEnv) = .ok (.ok (.number 12)) := by decide
example : (read "((if #t + *) 3 4)").map (eval testEnv) = .ok (.ok (.number 7)) := by decide
example : (read "((if #f + *) 3 4)").map (eval testEnv) = .ok (.ok (.number 12)) := by decide
example : (read "(if #t 1)").map (eval testEnv) = .ok (.error .emptyAccess) := by decide
example : (read "(quote 1 2)").map (eval testEnv) = .ok (.error .tooMany) := by decide
example : eval testEnv (.builtin "+".toList .plus) =
    .error (.cannotEval (.builtin "+".toList .plus)) := by decide
example : val.equal (.builtin "+".toList .plus) (.number 1) = .error .incomparableFunctions := by decide
example : val.equal (.number 1) (.builtin "+".toList .plus) = .ok false := by decide

/-- in the application case with a symbol head, `eval` performs exactly
`evalApplication e head (v.rest())`: the inlined lookup in `eval` agrees
with evaluating the head symbol first. -/
theorem eval_app_symbol_head (e : Env) (n : Str) (tail : seqv)
    (hif : n ≠ "if".toList) (hq : n ≠ "quote".toList) :
    eval e (.sq (.cons (.symbol n) tail)) = evalApplication e (.symbol n) tail := by
  have hsym : eval e (.symbol n) =
      (match e n with | some v => .ok v | none => .error (.unbound n)) := rfl
  unfold eval evalApplication
  rw [hsym]
  simp only [if_neg hif, if_neg hq]
  cases e n <;> rfl

/-- in the application case with a non-symbol head, `eval` is literally
`evalApplication e head (v.rest())`. -/
theorem eval_app_head (e : Env) (head : val) (tail : seqv)
    (h : ∀ n, head ≠ .symbol n) :
    eval e (.sq (.cons head tail)) = evalApplication e head tail := by
  cases head with
  | symbol n => exact absurd rfl (h n)
  | number i => rfl
  | boolean b => rfl
  | sq s => rfl
  | builtin n f => rfl

/-- convenience: the parsed `if` special form with exactly three operands. -/
def ifForm (c a b : val) : val :=
  .sq (.cons (.symbol "if".toList) (.cons c (.cons a (.cons b .empty))))

/-- convenience: the parsed `quote` special form with exactly one operand. -/
def quoteForm (x : val) : val :=
  .sq (.cons (.symbol "quote".toList) (.cons x .empty))

theorem skipWhileAux_stop (p : Char → Bool) (tok suf : Str) (pos : Nat)
    (htok : tok.all p = true) (hsuf : ∀ c, suf.head? = some c → p c = false) :
    skipWhileAux p (tok ++ suf) pos = pos + tok.length := by
  induction tok generalizing pos with
  | nil =>
    cases suf with
    | nil => simp [skipWhileAux]
    | cons c cs => simp [skipWhileAux, hsuf c rfl]
  | cons c cs ih =>
    simp only [List.all_cons, Bool.and_eq_true] at htok
    simp only [List.cons_append, skipWhileAux, htok.1, if_true, List.append_eq,
      ih (pos + 1) htok.2, List.length_cons]
    omega

theorem skipWS_over (s : Str) (pos : Nat) (ws after : Str)
    (hdrop : s.drop pos = ws ++ after) (hws : ws.all goIsSpace = true)
    (hafter : ∀ c, after.head? = some c → goIsSpace c = false) :
    lexState.skipWS ⟨s, pos⟩ = ⟨s, pos + ws.length⟩ := by
  unfold lexState.skipWS lexState.skipWhile
  simp only [hdrop]
  rw [skipWhileAux_stop _ _ _ _ hws hafter]

theorem getElem_append_len (pre : Str) (c : Char) (l : Str) :
    (pre ++ c :: l)[pre.length]? = some c := by
  rw [List.getElem?_append_right (Nat.le_refl _)]
  simp

theorem getElem_append_len_none (pre : Str) :
    (pre ++ ([] : Str))[pre.length]? = none := by
  simp

/-- claim C1 (code evidence): on the unterminated list "(1 2" — and already
on a bare "(" — the reader does not return its "EOS" error; it reaches
`current()` at end of input inside `readSeq` and panics ("Advancing beyond
EOS"), modelled by `panicEOS`, aborting the process. -/
theorem read_unterminated_list_panics :
    read "(1 2" = .error .panicEOS ∧ read "(" = .error .panicEOS ∧
    readErr.panicEOS ≠ readErr.eos := by decide

/-- claim C3 (counterexample): evaluating a literal function value does not
return it unchanged; it falls to the default case of the eval switch and
panics ("cannot eval ..."). -/
theorem eval_literal_function_not_identity :
    eval testEnv (.builtin "+".toList .plus) =
      .error (.cannotEval (.builtin "+".toList .plus)) ∧
    eval testEnv (.builtin "+".toList .plus) ≠
      .ok (.builtin "+".toList .plus) := by decide

/-- claim C3 (amended): for every environment and every literal Function
value passed directly to eval, evaluation is fatal with the "cannot eval"
panic rather than returning the function. -/
theorem eval_literal_function_fatal (e : Env) (n : Str) (f : bfun) :
    eval e (.builtin n f) = .error (.cannotEval (.builtin n f)) := rfl

/-- claim C4 (counterexample): evaluating `read("(if #t 1)")` does fail
fatally, but with the empty-sequence access panic ("first called on
empty"), not with the too-many-items panic that models `WrongArity` — the
third `first()` inside `get3` hits the end of the operand list before any
arity count is reported. -/
theorem if_two_operands_not_wrong_arity :
    (read "(if #t 1)").map (eval testEnv) = .ok (.error .emptyAccess) ∧
    evalErr.emptyAccess ≠ evalErr.tooMany := by decide

/-- claim C4 (amended): an `if` tail with more than 3 forms and a `quote`
tail with more than 1 form fail with the too-many-items panic
(`WrongArity`); an `if` tail with fewer than 3 forms and an empty `quote`
tail fail with the empty-access panic instead; in particular
`read("(quote 1 2)")` fails with `tooMany` while `read("(if #t 1)")` fails
with `emptyAccess`. -/
theorem special_form_arity_errors :
    (read "(if #t 1)" =
      .ok (.sq (.cons (.symbol "if".toList)
        (.cons (.boolean true) (.cons (.number 1) .empty))))) ∧
    (∀ (e : Env) (c a : val), eval e (.sq (.cons (.symbol "if".toList)
      (.cons c (.cons a .empty)))) = .error .emptyAccess) ∧
    (∀ (e : Env) (c : val), eval e (.sq (.cons (.symbol "if".toList)
      (.cons c .empty))) = .error .emptyAccess) ∧
    (∀ e : Env, eval e (.sq (.cons (.symbol "if".toList) .empty)) =
      .error .emptyAccess) ∧
    (∀ (e : Env) (c a b d : val) (rest : seqv),
      eval e (.sq (.cons (.symbol "if".toList)
        (.cons c (.cons a (.cons b (.cons d rest)))))) = .error .tooMany) ∧
    (read "(quote 1 2)" =
      .ok (.sq (.cons (.symbol "quote".toList)
        (.cons (.number 1) (.cons (.number 2) .empty))))) ∧
    (∀ (e : Env) (x y : val) (rest : seqv),
      eval e (.sq (.cons (.symbol "quote".toList)
        (.cons x (.cons y rest)))) = .error .tooMany) ∧
    (∀ e : Env, eval e (.sq (.cons (.symbol "quote".toList) .empty)) =
      .error .emptyAccess) := by
  refine ⟨by decide, fun e c a => rfl, fun e c => rfl, fun e => rfl,
    fun e c a b d rest => rfl, by decide,
    fun e x y rest => by rw [eval.eq_def]; simp, fun e => rfl⟩

/-- claim C9: a well-formed quote form evaluates to its single operand
unchanged, for every environment; in particular evaluating
`read("(quote (1 2 3))")` gives a value structurally equal to
`read("(1 2 3)")`. -/
theorem quote_returns_operand_unevaluated :
    (∀ (e : Env) (x : val), eval e (quoteForm x) = .ok x) ∧
    (read "(quote (1 2 3))" = .ok (quoteForm (.sq (.cons (.number 1)
      (.cons (.number 2) (.cons (.number 3) .empty)))))) ∧
    (read "(1 2 3)" = .ok (.sq (.cons (.number 1)
      (.cons (.number 2) (.cons (.number 3) .empty))))) ∧
    (∀ e : Env, (read "(quote (1 2 3))").map (eval e) =
      .ok (.ok (.sq (.cons (.number 1)
        (.cons (.number 2) (.cons (.number 3) .empty)))))) ∧
    (val.equal (.sq (.cons (.number 1) (.cons (.number 2)
      (.cons (.number 3) .empty)))) (.sq (.cons (.number 1)
      (.cons (.number 2) (.cons (.number 3) .empty)))) = .ok true) := by
  refine ⟨fun e x => rfl, by decide, by decide, fun e => rfl, by decide⟩

/-- claim C6: the truthiness rule — every value except `boolean false` is
truthy; a well-formed if form evaluates its condition first; on a truthy
condition value the result is that of the consequent alone (the
alternative never enters the result), on `boolean false` the result is
that of the alternative alone, and a condition error propagates without
either branch being evaluated. -/
theorem if_truthiness_and_choice :
    (∀ v : val, isTrue v = true ↔ v ≠ .boolean false) ∧
    (∀ (e : Env) (c a b cv : val), eval e c = .ok cv → isTrue cv = true →
      eval e (ifForm c a b) = eval e a) ∧
    (∀ (e : Env) (c a b cv : val), eval e c = .ok cv → isTrue cv = false →
      eval e (ifForm c a b) = eval e b) ∧
    (∀ (e : Env) (c a b : val) (er : evalErr), eval e c = .error er →
      eval e (ifForm c a b) = .error er) := by
  refine ⟨?_, ?_, ?_, ?_⟩
  · intro v
    constructor
    · intro h hfalse
      subst hfalse
      exact Bool.noConfusion h
    · intro h
      cases v with
      | boolean b =>
        cases b with
        | false => exact absurd rfl h
        | true => rfl
      | number i => rfl
      | symbol n => rfl
      | sq s => rfl
      | builtin n f => rfl
  · intro e c a b cv hc hcv
    have h : eval e (ifForm c a b) =
        (match eval e c with
         | .error er => .error er
         | .ok cv => if isTrue cv then eval e a else eval e b) := rfl
    rw [h, hc]
    simp [hcv]
  · intro e c a b cv hc hcv
    have h : eval e (ifForm c a b) =
        (match eval e c with
         | .error er => .error er
         | .ok cv => if isTrue cv then eval e a else eval e b) := rfl
    rw [h, hc]
    simp [hcv]
  · intro e c a b er hc
    have h : eval e (ifForm c a b) =
        (match eval e c with
         | .error er => .error er
         | .ok cv => if isTrue cv then eval e a else eval e b) := rfl
    rw [h, hc]

/-- claim C6 (witness): the three concrete if evaluations of the spec,
obtained from the theorem itself: zero is truthy, false selects the
alternative, true selects the consequent. -/
theorem if_truthiness_and_choice_witness :
    eval testEnv (ifForm (.number 0) (.number 1) (.number 2)) =
      eval testEnv (.number 1) ∧
    eval testEnv (ifForm (.boolean false) (.number 1) (.number 2)) =
      eval testEnv (.number 2) ∧
    eval testEnv (ifForm (.boolean true) (.number 1) (.number 2)) =
      eval testEnv (.number 1) :=
  ⟨if_truthiness_and_choice.2.1 testEnv (.number 0) (.number 1) (.number 2)
      (.number 0) rfl rfl,
   if_truthiness_and_choice.2.2.1 testEnv (.boolean false) (.number 1)
      (.number 2) (.boolean false) rfl rfl,
   if_truthiness_and_choice.2.1 testEnv (.boolean true) (.number 1)
      (.number 2) (.boolean true) rfl rfl⟩

/-- the claim's notion of variant: Number, Boolean, Symbol, Sequence
(empty or cons), Function. -/
def variantIdx : val → Nat
  | .number _ => 0
  | .boolean _ => 1
  | .symbol _ => 2
  | .sq _ => 3
  | .builtin _ _ => 4

/-- claim C2 (counterexample): comparing a Function (as receiver) with a
Number is not a boolean result — `builtin.equal` panics unconditionally
("you should not compare functions!"), so a cross-variant comparison whose
left operand is a Function is fatal rather than false. -/
theorem function_number_equal_fatal :
    val.equal (.builtin "+".toList .plus) (.number 1) =
      .error .incomparableFunctions ∧
    val.equal (.builtin "+".toList .plus) (.number 1) ≠
      .ok false := by decide

/-- claim C2 (amended): a cross-variant comparison returns false whenever
the receiver (left operand) is not a Function — including the case where
only the right operand is a Function; a comparison whose receiver is a
Function is fatal (`IncomparableFunctions`) whatever the right operand is,
so the function/function case is fatal as claimed, but so is every other
comparison with a Function receiver. -/
theorem cross_variant_equality :
    (∀ v w : val, variantIdx v ≠ variantIdx w → (∀ n f, v ≠ .builtin n f) →
      val.equal v w = .ok false) ∧
    (∀ (n : Str) (f : bfun) (w : val),
      val.equal (.builtin n f) w = .error .incomparableFunctions) := by
  constructor
  · intro v w hvar hfn
    cases v with
    | number i =>
      cases w with
      | number j => exact (hvar rfl).elim
      | boolean b => rfl
      | symbol n2 => rfl
      | sq s2 => rfl
      | builtin n2 f2 => rfl
    | boolean b =>
      cases w with
      | number j => rfl
      | boolean b2 => exact (hvar rfl).elim
      | symbol n2 => rfl
      | sq s2 => rfl
      | builtin n2 f2 => rfl
    | symbol n =>
      cases w with
      | number j => rfl
      | boolean b2 => rfl
      | symbol n2 => exact (hvar rfl).elim
      | sq s2 => rfl
      | builtin n2 f2 => rfl
    | sq s =>
      cases s with
      | empty =>
        cases w with
        | sq s2 => exact (hvar rfl).elim
        | number j => rfl
        | boolean b2 => rfl
        | symbol n2 => rfl
        | builtin n2 f2 => rfl
      | cons a d =>
        cases w with
        | sq s2 => exact (hvar rfl).elim
        | number j => rfl
        | boolean b2 => rfl
        | symbol n2 => rfl
        | builtin n2 f2 => rfl
    | builtin n f => exact absurd rfl (hfn n f)
  · intro n f w
    rfl

/-- claim C2 (witness): a concrete cross-variant comparison through the
theorem: a number receiver against a boolean is false. -/
theorem cross_variant_equality_witness :
    val.equal (.number 1) (.boolean true) = .ok false :=
  cross_variant_equality.1 (.number 1) (.boolean true) (by decide)
    (fun n f h => by cases h)

theorem wrap64_congr (x y : Int) (h : x % 2 ^ 64 = y % 2 ^ 64) :
    wrap64 x = wrap64 y := by
  unfold wrap64
  omega

theorem wrap64_emod (x : Int) : wrap64 x % 2 ^ 64 = x % 2 ^ 64 := by
  unfold wrap64
  omega

theorem wrap64_add_left (a b : Int) : wrap64 (wrap64 a + b) = wrap64 (a + b) := by
  refine wrap64_congr _ _ ?_
  rw [← Int.emod_add_emod, wrap64_emod, Int.emod_add_emod]

theorem wrap64_mul_left (a b : Int) : wrap64 (wrap64 a * b) = wrap64 (a * b) := by
  refine wrap64_congr _ _ ?_
  rw [Int.mul_emod, wrap64_emod, ← Int.mul_emod]

theorem wrap64_zero : wrap64 0 = 0 := by decide

theorem wrap64_one : wrap64 1 = 1 := by decide

theorem builtinPlusAux_numbers (ns : List Int) (acc : Int) :
    builtinPlusAux acc (ns.map .number) =
      .ok (.number (ns.foldl (fun a b => wrap64 (a + b)) acc)) := by
  induction ns generalizing acc with
  | nil => rfl
  | cons n rest ih => simp [builtinPlusAux, List.foldl_cons, ih]

theorem builtinMulAux_numbers (ns : List Int) (acc : Int) :
    builtinMulAux acc (ns.map .number) =
      .ok (.number (ns.foldl (fun a b => wrap64 (a * b)) acc)) := by
  induction ns generalizing acc with
  | nil => rfl
  | cons n rest ih => simp [builtinMulAux, List.foldl_cons, ih]

theorem builtinPlusAux_mismatch (pre : List val) (x : val) (rest : List val)
    (acc : Int) (hpre : ∀ a ∈ pre, ∃ m : Int, a = .number m)
    (hx : ∀ m : Int, x ≠ .number m) :
    builtinPlusAux acc (pre ++ x :: rest) = .error (.typeMismatch x) := by
  induction pre generalizing acc with
  | nil =>
    cases x with
    | number m => exact absurd rfl (hx m)
    | boolean b => rfl
    | symbol n => rfl
    | sq s => rfl
    | builtin n f => rfl
  | cons a pre ih =>
    obtain ⟨m, hm⟩ := hpre a (List.mem_cons_self a pre)
    subst hm
    simpa [builtinPlusAux] using
      ih (wrap64 (acc + m)) (fun b hb => hpre b (List.mem_cons_of_mem _ hb))

theorem builtinMulAux_mismatch (pre : List val) (x : val) (rest : List val)
    (acc : Int) (hpre : ∀ a ∈ pre, ∃ m : Int, a = .number m)
    (hx : ∀ m : Int, x ≠ .number m) :
    builtinMulAux acc (pre ++ x :: rest) = .error (.typeMismatch x) := by
  induction pre generalizing acc with
  | nil =>
    cases x with
    | number m => exact absurd rfl (hx m)
    | boolean b => rfl
    | symbol n => rfl
    | sq s => rfl
    | builtin n f => rfl
  | cons a pre ih =>
    obtain ⟨m, hm⟩ := hpre a (List.mem_cons_self a pre)
    subst hm
    simpa [builtinMulAux] using
      ih (wrap64 (acc * m)) (fun b hb => hpre b (List.mem_cons_of_mem _ hb))

/-- claim C7: `+` folds over the arguments with (wrapping) int64 addition
starting at 0 and `*` folds with int64 multiplication starting at 1; both
accept any number of arguments — zero arguments give 0 and 1 respectively —
and both fail with the type-mismatch panic naming the first offending
argument when some argument is not a number. -/
theorem builtin_fold_and_arity :
    (∀ ns : List Int, builtinPlus (ns.map .number) =
      .ok (.number (ns.foldl (fun a b => wrap64 (a + b)) 0))) ∧
    (builtinPlus [] = .ok (.number 0)) ∧
    (∀ (pre : List val) (x : val) (rest : List val),
      (∀ a ∈ pre, ∃ m : Int, a = .number m) → (∀ m : Int, x ≠ .number m) →
      builtinPlus (pre ++ x :: rest) = .error (.typeMismatch x)) ∧
    (∀ ns : List Int, builtinMul (ns.map .number) =
      .ok (.number (ns.foldl (fun a b => wrap64 (a * b)) 1))) ∧
    (builtinMul [] = .ok (.number 1)) ∧
    (∀ (pre : List val) (x : val) (rest : List val),
      (∀ a ∈ pre, ∃ m : Int, a = .number m) → (∀ m : Int, x ≠ .number m) →
      builtinMul (pre ++ x :: rest) = .error (.typeMismatch x)) :=
  ⟨fun ns => builtinPlusAux_numbers ns 0, rfl,
   fun pre x rest hpre hx => builtinPlusAux_mismatch pre x rest 0 hpre hx,
   fun ns => builtinMulAux_numbers ns 1, rfl,
   fun pre x rest hpre hx => builtinMulAux_mismatch pre x rest 1 hpre hx⟩

/-- claim C7 (witness): concrete instances through the theorem — a sum, the
empty sum and product, and a type mismatch on a boolean argument. -/
theorem builtin_fold_and_arity_witness :
    builtinPlus [.number 1, .number 2, .number 3] = .ok (.number 6) ∧
    builtinPlus [] = .ok (.number 0) ∧
    builtinMul [] = .ok (.number 1) ∧
    builtinPlus [.number 1, .boolean true] =
      .error (.typeMismatch (.boolean true)) := by
  refine ⟨?_, builtin_fold_and_arity.2.1, builtin_fold_and_arity.2.2.2.2.1, ?_⟩
  · have h := builtin_fold_and_arity.1 [1, 2, 3]
    simpa using h
  · have h := builtin_fold_and_arity.2.2.1 [.number 1] (.boolean true) []
      (by intro a ha; simp at ha; exact ⟨1, ha⟩) (fun m h => by cases h)
    simpa using h

theorem foldl_wrap_add (ns : List Int) (a : Int) :
    ns.foldl (fun x y => wrap64 (x + y)) (wrap64 a) = wrap64 (a + ns.sum) := by
  induction ns generalizing a with
  | nil => simp
  | cons n rest ih =>
    simp only [List.foldl_cons, List.sum_cons, wrap64_add_left, ih (a + n)]
    ring_nf

theorem foldl_wrap_mul (ns : List Int) (a : Int) :
    ns.foldl (fun x y => wrap64 (x * y)) (wrap64 a) = wrap64 (a * ns.prod) := by
  induction ns generalizing a with
  | nil => simp
  | cons n rest ih =>
    simp only [List.foldl_cons, List.prod_cons, wrap64_mul_left, ih (a * n)]
    ring_nf

/-- claim C10: the builtins do fixed-width 64-bit two's-complement
arithmetic — on int64-ranged number arguments `+` returns the mathematical
sum reduced modulo 2^64 into the signed interval (and `*` likewise the
product), never an error and never an out-of-range arbitrary-precision
value. -/
theorem builtin_arith_wraps_mod_2_64 :
    (∀ ns : List Int, (∀ n ∈ ns, -(2 ^ 63) ≤ n ∧ n < 2 ^ 63) →
      builtinPlus (ns.map .number) = .ok (.number (wrap64 ns.sum)) ∧
      -(2 ^ 63) ≤ wrap64 ns.sum ∧ wrap64 ns.sum < 2 ^ 63) ∧
    (∀ ns : List Int, (∀ n ∈ ns, -(2 ^ 63) ≤ n ∧ n < 2 ^ 63) →
      builtinMul (ns.map .number) = .ok (.number (wrap64 ns.prod)) ∧
      -(2 ^ 63) ≤ wrap64 ns.prod ∧ wrap64 ns.prod < 2 ^ 63) := by
  constructor
  · intro ns _
    refine ⟨?_, by unfold wrap64; omega, by unfold wrap64; omega⟩
    rw [show builtinPlus (ns.map .number) = builtinPlusAux 0 (ns.map .number) from rfl,
      builtinPlusAux_numbers ns 0,
      show (0 : Int) = wrap64 0 from wrap64_zero.symm, foldl_wrap_add]
    simp
  · intro ns _
    refine ⟨?_, by unfold wrap64; omega, by unfold wrap64; omega⟩
    rw [show builtinMul (ns.map .number) = builtinMulAux 1 (ns.map .number) from rfl,
      builtinMulAux_numbers ns 1,
      show (1 : Int) = wrap64 1 from wrap64_one.symm, foldl_wrap_mul]
    simp

/-- claim C10 (witness): adding 1 to the largest int64 wraps to the
smallest int64, and squaring 2^32 wraps the product to 0 — obtained from
the theorem at concrete argument lists. -/
theorem builtin_arith_wraps_mod_2_64_witness :
    builtinPlus [.number (2 ^ 63 - 1), .number 1] =
      .ok (.number (-(2 ^ 63))) ∧
    builtinMul [.number (2 ^ 32), .number (2 ^ 32)] = .ok (.number 0) ∧
    wrap64 ((2 ^ 63 - 1) + 1) ≠ (2 ^ 63 - 1) + 1 := by
  refine ⟨?_, ?_, by decide⟩
  · have h := (builtin_arith_wraps_mod_2_64.1 [2 ^ 63 - 1, 1] (by decide)).1
    have hs : wrap64 (([(2 : Int) ^ 63 - 1, 1]).sum) = -(2 ^ 63) := by decide
    rw [hs] at h
    simpa using h
  · have h := (builtin_arith_wraps_mod_2_64.2 [2 ^ 32, 2 ^ 32] (by decide)).1
    have hs : wrap64 (([(2 : Int) ^ 32, 2 ^ 32]).prod) = 0 := by decide
    rw [hs] at h
    simpa using h

theorem skipWS_zero_pre (pre : Str) (c0 : Char) (l : Str)
    (hpre : pre.all goIsSpace = true) (hc0 : goIsSpace c0 = false) :
    lexState.skipWS ⟨pre ++ c0 :: l, 0⟩ = ⟨pre ++ c0 :: l, pre.length⟩ := by
  have h := skipWS_over (pre ++ c0 :: l) 0 pre (c0 :: l) (by simp) hpre
    (fun d hd => by
      simp only [List.head?_cons, Option.some.injEq] at hd
      rw [← hd]; exact hc0)
  simpa using h

theorem readF_hash_bad_aux (f : Nat) (pre : Str) (c : Char) (rest : Str)
    (hpre : pre.all goIsSpace = true) (ht : c ≠ 't') (hf : c ≠ 'f') :
    readF (f + 1) ⟨pre ++ '#' :: c :: rest, 0⟩ = .error .noBoolean := by
  have hws := skipWS_zero_pre pre '#' (c :: rest) hpre (by decide)
  have hcur : (⟨pre ++ '#' :: c :: rest, pre.length⟩ : lexState).curr = some '#' :=
    getElem_append_len pre '#' (c :: rest)
  have hcur2 : (⟨pre ++ '#' :: c :: rest, pre.length + 1⟩ : lexState).curr = some c := by
    show (pre ++ '#' :: c :: rest)[pre.length + 1]? = some c
    rw [List.append_cons pre '#' (c :: rest)]
    have := getElem_append_len (pre ++ ['#']) c rest
    simpa using this
  simp only [readF, hws, hcur, lexState.advance, hcur2, if_pos rfl]
  simp [ht, hf]

theorem readF_hash_eos_aux (f : Nat) (pre : Str)
    (hpre : pre.all goIsSpace = true) :
    readF (f + 1) ⟨pre ++ ['#'], 0⟩ = .error .eos := by
  have hws := skipWS_zero_pre pre '#' [] hpre (by decide)
  have hcur : (⟨pre ++ ['#'], pre.length⟩ : lexState).curr = some '#' :=
    getElem_append_len pre '#' []
  have hcur2 : (⟨pre ++ ['#'], pre.length + 1⟩ : lexState).curr = none := by
    show (pre ++ ['#'])[pre.length + 1]? = none
    apply List.getElem?_eq_none
    simp
  simp only [readF, hws, hcur, lexState.advance, hcur2, if_pos rfl]
  simp

theorem readF_hash_bool_aux (f : Nat) (pre : Str) (c1 : Char) (rest : Str)
    (hpre : pre.all goIsSpace = true) (hb : c1 = 't' ∨ c1 = 'f') :
    readF (f + 1) ⟨pre ++ '#' :: c1 :: rest, 0⟩ =
      .ok (.boolean (c1 = 't'), ⟨pre ++ '#' :: c1 :: rest, pre.length + 2⟩) := by
  have hws := skipWS_zero_pre pre '#' (c1 :: rest) hpre (by decide)
  have hcur : (⟨pre ++ '#' :: c1 :: rest, pre.length⟩ : lexState).curr = some '#' :=
    getElem_append_len pre '#' (c1 :: rest)
  have hcur2 : (⟨pre ++ '#' :: c1 :: rest, pre.length + 1⟩ : lexState).curr = some c1 := by
    show (pre ++ '#' :: c1 :: rest)[pre.length + 1]? = some c1
    rw [List.append_cons pre '#' (c1 :: rest)]
    have := getElem_append_len (pre ++ ['#']) c1 rest
    simpa using this
  simp only [readF, hws, hcur, lexState.advance, hcur2, if_pos rfl]
  rcases hb with hb | hb
  · simp [hb]
  · subst hb
    simp

/-- claim C5 (counterexample): when the input ends immediately after the
'#', read does not fail with the "No boolean" error (`InvalidBooleanLiteral`)
but with the "EOS" error (`UnexpectedEndOfInput`) — the reader checks for
end of input before inspecting the boolean character. -/
theorem hash_at_eos_is_eos_error :
    read "#" = .error .eos ∧ read "#" ≠ .error .noBoolean ∧
    read "  #" = .error .eos := by decide

/-- claim C5 (amended): after optional leading whitespace, a '#' followed
by any character other than 't' or 'f' fails with the "No boolean" error
(`InvalidBooleanLiteral`); an input that ends immediately after the '#'
fails with the "EOS" error (`UnexpectedEndOfInput`) instead; "#t" yields
`Boolean(true)` and "#f" yields `Boolean(false)` whatever follows. -/
theorem hash_literal_reading :
    (∀ (pre : Str) (c : Char) (rest : Str), pre.all goIsSpace = true →
      c ≠ 't' → c ≠ 'f' →
      readL (pre ++ '#' :: c :: rest) = .error .noBoolean) ∧
    (∀ pre : Str, pre.all goIsSpace = true →
      readL (pre ++ ['#']) = .error .eos) ∧
    (∀ (pre rest : Str), pre.all goIsSpace = true →
      readL (pre ++ '#' :: 't' :: rest) = .ok (.boolean true)) ∧
    (∀ (pre rest : Str), pre.all goIsSpace = true →
      readL (pre ++ '#' :: 'f' :: rest) = .ok (.boolean false)) := by
  refine ⟨?_, ?_, ?_, ?_⟩
  · intro pre c rest hpre ht hf
    unfold readL
    rw [readF_hash_bad_aux (2 * (pre ++ '#' :: c :: rest).length + 3)
      pre c rest hpre ht hf]
  · intro pre hpre
    unfold readL
    rw [readF_hash_eos_aux (2 * (pre ++ ['#']).length + 3) pre hpre]
  · intro pre rest hpre
    unfold readL
    rw [readF_hash_bool_aux (2 * (pre ++ '#' :: 't' :: rest).length + 3)
      pre 't' rest hpre (Or.inl rfl)]
    simp
  · intro pre rest hpre
    unfold readL
    rw [readF_hash_bool_aux (2 * (pre ++ '#' :: 'f' :: rest).length + 3)
      pre 'f' rest hpre (Or.inr rfl)]
    simp

/-- claim C5 (witness): concrete instances through the theorem — a bad
boolean character after whitespace, and the two good literals. -/
theorem hash_literal_reading_witness :
    readL ([' '] ++ '#' :: 'x' :: []) = .error .noBoolean ∧
    readL ([] ++ '#' :: 't' :: []) = .ok (.boolean true) ∧
    readL ([] ++ '#' :: 'f' :: []) = .ok (.boolean false) :=
  ⟨hash_literal_reading.1 [' '] 'x' [] (by decide) (by decide) (by decide),
   hash_literal_reading.2.2.1 [] [] rfl,
   hash_literal_reading.2.2.2 [] [] rfl⟩

theorem digitsToNat_append_one (a : Str) (c : Char) :
    digitsToNat (a ++ [c]) = digitsToNat a * 10 + (c.toNat - 48) := by
  unfold digitsToNat
  rw [List.foldl_append]
  rfl

theorem digitChar_isDigit (d : Nat) (h : d < 10) :
    isDigitChar (digitChar d) = true := by
  interval_cases d <;> decide

theorem digitChar_toNat (d : Nat) (h : d < 10) :
    (digitChar d).toNat - 48 = d := by
  interval_cases d <;> decide

theorem digit_not_space (c : Char) (h : isDigitChar c = true) :
    goIsSpace c = false := by
  simp only [isDigitChar, Bool.and_eq_true, decide_eq_true_eq] at h
  simp only [goIsSpace, Bool.or_eq_false_iff, Bool.and_eq_false_iff]
  refine ⟨⟨?_, ?_⟩, ?_⟩ <;> simp only [decide_eq_false_iff_not] <;> omega

theorem digit_ne (c : Char) (h : isDigitChar c = true) (d : Char)
    (hd : isDigitChar d = false) : c ≠ d := by
  intro he
  subst he
  rw [h] at hd
  exact Bool.noConfusion hd

theorem digit_atom (c : Char) (h : isDigitChar c = true) :
    isAtomChar c = true := by
  have h1 : c ≠ '(' := digit_ne c h '(' (by decide)
  have h2 : c ≠ ')' := digit_ne c h ')' (by decide)
  simp [isAtomChar, h1, h2, digit_not_space c h]

theorem natDigitsAux_ok (fuel : Nat) : ∀ n : Nat, n < 10 ^ fuel → 1 ≤ fuel →
    digitsToNat (natDigitsAux fuel n) = n ∧
    (natDigitsAux fuel n).all isDigitChar = true ∧
    natDigitsAux fuel n ≠ [] := by
  induction fuel with
  | zero => intro n _ h1; exact absurd h1 (by omega)
  | succ fuel ih =>
    intro n hn _
    by_cases hsmall : n < 10
    · refine ⟨?_, ?_, ?_⟩
      · simp [natDigitsAux, hsmall, digitsToNat]
        have := digitChar_toNat n hsmall
        omega
      · simp [natDigitsAux, hsmall, digitChar_isDigit n hsmall]
      · simp [natDigitsAux, hsmall]
    · have hfuel1 : 1 ≤ fuel := by
        by_contra hno
        have : fuel = 0 := by omega
        subst this
        simp only [pow_succ, pow_zero, one_mul] at hn
        omega
      have hdiv : n / 10 < 10 ^ fuel := by
        rw [Nat.div_lt_iff_lt_mul (by omega)]
        calc n < 10 ^ (fuel + 1) := hn
        _ = 10 ^ fuel * 10 := by rw [pow_succ]
      obtain ⟨ihv, iha, ihn⟩ := ih (n / 10) hdiv hfuel1
      have hm : n % 10 < 10 := Nat.mod_lt _ (by omega)
      refine ⟨?_, ?_, ?_⟩
      · simp only [natDigitsAux, if_neg hsmall]
        rw [digitsToNat_append_one, ihv, digitChar_toNat _ hm]
        omega
      · simp only [natDigitsAux, if_neg hsmall, List.all_append, iha,
          List.all_cons, List.all_nil, digitChar_isDigit _ hm]
        rfl
      · simp [natDigitsAux, if_neg hsmall]

theorem natDigits_ok (n : Nat) :
    digitsToNat (natDigits n) = n ∧
    (natDigits n).all isDigitChar = true ∧
    natDigits n ≠ [] := by
  refine natDigitsAux_ok (n + 1) n ?_ (by omega)
  calc n < 10 ^ n := Nat.lt_pow_self (by omega) n
  _ ≤ 10 ^ (n + 1) := Nat.pow_le_pow_right (by omega) (by omega)


theorem goParseInt64_digits (s : Str) (hn : s ≠ []) (ha : s.all isDigitChar = true)
    (hm : ∀ c ∈ s, c ≠ '-' ∧ c ≠ '+') :
    goParseInt64 s =
      (if digitsToNat s ≤ 2 ^ 63 - 1 then some (digitsToNat s : Int) else none) := by
  cases s with
  | nil => exact absurd rfl hn
  | cons c l =>
    have hc := hm c (List.mem_cons_self c l)
    simp only [goParseInt64, hc.1, hc.2, ha]
    simp
    intro h
    simp only [List.all_cons, Bool.and_eq_true] at ha
    obtain ⟨x, hx, hxd⟩ := h ha.1
    have hax := List.all_eq_true.mp ha.2 x hx
    rw [hax] at hxd
    exact Bool.noConfusion hxd

theorem goParseInt64_neg_digits (l : Str) (hn : l ≠ []) (ha : l.all isDigitChar = true) :
    goParseInt64 ('-' :: l) =
      (if digitsToNat l ≤ 2 ^ 63 then some (-(digitsToNat l : Int)) else none) := by
  simp only [goParseInt64]
  simp [hn, ha]

theorem prInt_parse (i : Int) (hlo : -(2 ^ 63) ≤ i) (hhi : i < 2 ^ 63) :
    goParseInt64 (prInt i) = some i := by
  obtain ⟨hv, ha, hn⟩ := natDigits_ok i.natAbs
  by_cases hneg : i < 0
  · rw [show prInt i = '-' :: natDigits i.natAbs from by simp [prInt, hneg]]
    rw [goParseInt64_neg_digits _ hn ha, hv]
    rw [if_pos (by omega : i.natAbs ≤ 2 ^ 63)]
    congr 1
    omega
  · rw [show prInt i = natDigits i.natAbs from by simp [prInt, hneg]]
    have hm : ∀ c ∈ natDigits i.natAbs, c ≠ '-' ∧ c ≠ '+' := by
      intro c hc
      have hcd := List.all_eq_true.mp ha c hc
      exact ⟨digit_ne c hcd '-' (by decide), digit_ne c hcd '+' (by decide)⟩
    rw [goParseInt64_digits _ hn ha hm, hv]
    rw [if_pos (by omega : i.natAbs ≤ 2 ^ 63 - 1)]
    congr 1
    omega

theorem prInt_all_atom (i : Int) : (prInt i).all isAtomChar = true := by
  obtain ⟨_, ha, _⟩ := natDigits_ok i.natAbs
  have hd : (natDigits i.natAbs).all isAtomChar = true := by
    rw [List.all_eq_true]
    intro c hc
    exact digit_atom c (List.all_eq_true.mp ha c hc)
  by_cases hneg : i < 0
  · rw [show prInt i = '-' :: natDigits i.natAbs from by simp [prInt, hneg]]
    simp only [List.all_cons, hd, Bool.and_true]
    decide
  · rw [show prInt i = natDigits i.natAbs from by simp [prInt, hneg]]
    exact hd

theorem prInt_ne_nil (i : Int) : prInt i ≠ [] := by
  obtain ⟨_, _, hn⟩ := natDigits_ok i.natAbs
  by_cases hneg : i < 0
  · rw [show prInt i = '-' :: natDigits i.natAbs from by simp [prInt, hneg]]
    simp
  · rw [show prInt i = natDigits i.natAbs from by simp [prInt, hneg]]
    exact hn

theorem prInt_head (i : Int) (c : Char) (l : Str) (h : prInt i = c :: l) :
    goIsSpace c = false ∧ c ≠ '#' ∧ c ≠ '(' ∧ c ≠ ')' := by
  have hc : c = '-' ∨ isDigitChar c = true := by
    obtain ⟨_, ha, hn⟩ := natDigits_ok i.natAbs
    by_cases hneg : i < 0
    · rw [show prInt i = '-' :: natDigits i.natAbs from by simp [prInt, hneg]] at h
      injection h with h1 h2
      exact Or.inl h1.symm
    · rw [show prInt i = natDigits i.natAbs from by simp [prInt, hneg]] at h
      right
      have hmem : c ∈ natDigits i.natAbs := by
        rw [h]
        exact List.mem_cons_self c l
      exact List.all_eq_true.mp ha c hmem
  rcases hc with hc | hc
  · subst hc
    exact ⟨by decide, by decide, by decide, by decide⟩
  · exact ⟨digit_not_space c hc, digit_ne c hc '#' (by decide),
      digit_ne c hc '(' (by decide), digit_ne c hc ')' (by decide)⟩

/-- a symbol name as the reader can produce it: a nonempty maximal run of
atom characters whose first character is not '#' and which fails the
int64 parse. -/
def symOk (n : Str) : Bool :=
  !n.isEmpty && (n.head? != some '#') && n.all isAtomChar &&
    (goParseInt64 n).isNone

mutual
/-- characterization of the values the reader can return: int64-ranged
numbers, booleans, reader-producible symbols, and sequences of such. -/
def readableV : val → Bool
  | .number i => decide (-(2 ^ 63) ≤ i) && decide (i < 2 ^ 63)
  | .boolean _ => true
  | .symbol n => symOk n
  | .sq s => readableS s
  | .builtin _ _ => false
def readableS : seqv → Bool
  | .empty => true
  | .cons a d => readableV a && readableS d
end

theorem skipWhileAux_spec (p : Char → Bool) (l : Str) : ∀ pos : Nat,
    ∃ k, skipWhileAux p l pos = pos + k ∧ k ≤ l.length ∧
      (l.take k).all p = true ∧
      (∀ c, (l.drop k).head? = some c → p c = false) := by
  induction l with
  | nil =>
    intro pos
    exact ⟨0, rfl, by simp, by simp, by simp⟩
  | cons c rest ih =>
    intro pos
    by_cases hp : p c = true
    · obtain ⟨k, hk, hle, hall, hstop⟩ := ih (pos + 1)
      refine ⟨k + 1, ?_, by simp; omega, ?_, ?_⟩
      · simp only [skipWhileAux, hp, if_true, hk]
        omega
      · simp [List.take_succ_cons, hp, hall]
      · simp only [List.drop_succ_cons]
        exact hstop
    · refine ⟨0, ?_, by simp, by simp, ?_⟩
      · simp only [skipWhileAux, hp]
        simp
      · intro d hd
        simp only [List.drop_zero, List.head?_cons, Option.some.injEq] at hd
        rw [← hd]
        simpa using hp

theorem headq_drop (s : Str) : ∀ m : Nat, (s.drop m).head? = s[m]? := by
  induction s with
  | nil => intro m; simp
  | cons c rest ih =>
    intro m
    cases m with
    | zero => simp
    | succ m =>
      rw [List.drop_succ_cons, ih m]
      simp

theorem skipWS_not_space (ls0 : lexState) (c : Char)
    (h : (ls0.skipWS).curr = some c) : goIsSpace c = false := by
  obtain ⟨k, hk, _, _, hstop⟩ :=
    skipWhileAux_spec goIsSpace (ls0.s.drop ls0.pos) ls0.pos
  apply hstop
  rw [List.drop_drop, headq_drop]
  have hh : (ls0.skipWS).curr = ls0.s[ls0.pos + k]? := by
    show ls0.s[skipWhileAux goIsSpace (ls0.s.drop ls0.pos) ls0.pos]? = _
    rw [hk]
  rw [← hh]
  exact h

theorem take_head (l : Str) (k : Nat) (hk : 1 ≤ k) :
    (l.take k).head? = l.head? := by
  cases l with
  | nil => simp
  | cons c rest =>
    cases k with
    | zero => omega
    | succ k => simp

theorem goParseInt64_range (s : Str) (i : Int) (h : goParseInt64 s = some i) :
    -(2 ^ 63) ≤ i ∧ i < 2 ^ 63 := by
  cases s with
  | nil => exact absurd h (by simp [goParseInt64])
  | cons c l =>
    simp only [goParseInt64] at h
    repeat' split at h
    all_goals first
      | (injection h with h1; omega)
      | (injection h)

theorem read_sound (fuel : Nat) :
    (∀ ls0 v ls', readF fuel ls0 = .ok (v, ls') → readableV v = true) ∧
    (∀ ls0 s ls', readSeqF fuel ls0 = .ok (s, ls') → readableS s = true) := by
  induction fuel with
  | zero =>
    exact ⟨fun ls0 v ls' h => by simp [readF] at h,
           fun ls0 s ls' h => by simp [readSeqF] at h⟩
  | succ fuel ih =>
    constructor
    · intro ls0 v ls' h
      simp only [readF] at h
      split at h
      · exact absurd h (by simp)
      · rename_i c hcur
        split at h
        · -- '#'
          split at h
          · exact absurd h (by simp)
          · split at h
            · simp only [Except.ok.injEq, Prod.mk.injEq] at h
              rw [← h.1]
              rfl
            · split at h
              · simp only [Except.ok.injEq, Prod.mk.injEq] at h
                rw [← h.1]
                rfl
              · exact absurd h (by simp)
        · rename_i hhash
          split at h
          · -- '('
            split at h
            · rename_i s ls2 hr
              simp only [Except.ok.injEq, Prod.mk.injEq] at h
              rw [← h.1]
              exact ih.2 _ _ _ hr
            · exact absurd h (by simp)
          · rename_i hlpar
            split at h
            · exact absurd h (by simp)
            · rename_i hrpar
              split at h
              · -- number token
                rename_i n hp
                simp only [Except.ok.injEq, Prod.mk.injEq] at h
                rw [← h.1]
                have hr := goParseInt64_range _ _ hp
                simp only [readableV, Bool.and_eq_true, decide_eq_true_eq]
                exact hr
              · -- symbol token
                rename_i hp
                simp only [Except.ok.injEq, Prod.mk.injEq] at h
                rw [← h.1]
                have hc_nospace : goIsSpace c = false := skipWS_not_space ls0 c hcur
                have hatom : isAtomChar c = true := by
                  simp [isAtomChar, hc_nospace, hlpar, hrpar]
                obtain ⟨k, hk, _, hall, hstop⟩ :=
                  skipWhileAux_spec isAtomChar
                    ((ls0.skipWS).s.drop (ls0.skipWS).pos) (ls0.skipWS).pos
                have hhead : ((ls0.skipWS).s.drop (ls0.skipWS).pos).head? = some c := by
                  rw [headq_drop]
                  exact hcur
                have hk1 : 1 ≤ k := by
                  by_contra hk0
                  have hk0 : k = 0 := by omega
                  subst hk0
                  have hfc := hstop c (by simpa using hhead)
                  rw [hatom] at hfc
                  exact Bool.noConfusion hfc
                have htok : getToken (ls0.skipWS) ((ls0.skipWS).skipWhile isAtomChar) =
                    ((ls0.skipWS).s.drop (ls0.skipWS).pos).take k := by
                  show ((ls0.skipWS).s.drop (ls0.skipWS).pos).take
                      ((skipWhileAux isAtomChar _ (ls0.skipWS).pos) - (ls0.skipWS).pos) = _
                  rw [hk]
                  congr 1
                  omega
                rw [htok]
                have hth : (((ls0.skipWS).s.drop (ls0.skipWS).pos).take k).head? = some c := by
                  rw [take_head _ _ hk1]
                  exact hhead
                simp only [readableV, symOk, Bool.and_eq_true]
                refine ⟨⟨⟨?_, ?_⟩, hall⟩, ?_⟩
                · cases hcase : ((ls0.skipWS).s.drop (ls0.skipWS).pos).take k with
                  | nil => rw [hcase] at hth; exact absurd hth (by simp)
                  | cons x xs => simp
                · rw [hth]
                  simp [hhash]
                · rw [← htok, hp]
                  rfl
    · intro ls0 s ls' h
      simp only [readSeqF] at h
      split at h
      · exact absurd h (by simp)
      · rename_i c hcur
        split at h
        · simp only [Except.ok.injEq, Prod.mk.injEq] at h
          rw [← h.1]
          rfl
        · split at h
          · exact absurd h (by simp)
          · rename_i car ls1 hr1
            split at h
            · exact absurd h (by simp)
            · rename_i cdr ls2 hr2
              simp only [Except.ok.injEq, Prod.mk.injEq] at h
              rw [← h.1]
              simp only [readableS, Bool.and_eq_true]
              exact ⟨ih.1 _ _ _ hr1, ih.2 _ _ _ hr2⟩

theorem atom_char_parts (c : Char) (h : isAtomChar c = true) :
    goIsSpace c = false ∧ c ≠ '(' ∧ c ≠ ')' := by
  simp only [isAtomChar, Bool.and_eq_true, Bool.not_eq_true',
    decide_eq_false_iff_not] at h
  exact ⟨h.1.1, h.1.2, h.2⟩

theorem skipWS_noop (s : Str) (pos : Nat) (c : Char) (hcur : s[pos]? = some c)
    (hc : goIsSpace c = false) : lexState.skipWS ⟨s, pos⟩ = ⟨s, pos⟩ := by
  unfold lexState.skipWS lexState.skipWhile
  cases hd : s.drop pos with
  | nil =>
    have hh := headq_drop s pos
    rw [hd] at hh
    rw [← hh] at hcur
    exact absurd hcur (by simp)
  | cons d rest =>
    have hh := headq_drop s pos
    rw [hd] at hh
    rw [← hh] at hcur
    simp only [List.head?_cons, Option.some.injEq] at hcur
    subst hcur
    simp [skipWhileAux, hc]

theorem skipWS_one_space (s : Str) (pos : Nat) (c : Char) (rest : Str)
    (hd : s.drop pos = ' ' :: c :: rest) (hc : goIsSpace c = false) :
    lexState.skipWS ⟨s, pos⟩ = ⟨s, pos + 1⟩ := by
  unfold lexState.skipWS lexState.skipWhile
  rw [hd]
  have h := skipWhileAux_stop goIsSpace [' '] (c :: rest) pos (by decide)
    (fun d hdd => by
      simp only [List.head?_cons, Option.some.injEq] at hdd
      rw [← hdd]
      exact hc)
  simpa using h

theorem curr_of_drop (s : Str) (pos : Nat) (c : Char) (l : Str)
    (hd : s.drop pos = c :: l) : lexState.curr ⟨s, pos⟩ = some c := by
  show s[pos]? = some c
  rw [← headq_drop, hd]
  rfl

theorem drop_add_of_drop (s : Str) (pos n : Nat) (pre post : Str)
    (hd : s.drop pos = pre ++ post) (hn : pre.length = n) :
    s.drop (pos + n) = post := by
  have h1 : s.drop (pos + n) = (s.drop pos).drop n := by
    rw [List.drop_drop, Nat.add_comm]
  rw [h1, hd, ← hn, List.drop_left]

theorem readF_token (f : Nat) (s : Str) (pos : Nat) (c : Char) (rest suf : Str)
    (hs : s.drop pos = (c :: rest) ++ suf)
    (hall : (c :: rest).all isAtomChar = true)
    (hhash : c ≠ '#')
    (hdelim : ∀ d, suf.head? = some d → isAtomChar d = false) :
    readF (f + 1) ⟨s, pos⟩ =
      (match goParseInt64 (c :: rest) with
       | some n => .ok (.number n, ⟨s, pos + (c :: rest).length⟩)
       | none => .ok (.symbol (c :: rest), ⟨s, pos + (c :: rest).length⟩)) := by
  have hcatom : isAtomChar c = true := by
    simp only [List.all_cons, Bool.and_eq_true] at hall
    exact hall.1
  obtain ⟨hnospace, hlpar, hrpar⟩ := atom_char_parts c hcatom
  have hcur : lexState.curr ⟨s, pos⟩ = some c := by
    apply curr_of_drop s pos c (rest ++ suf)
    simpa using hs
  have hws : lexState.skipWS ⟨s, pos⟩ = ⟨s, pos⟩ :=
    skipWS_noop s pos c (by rw [← hcur]; rfl) hnospace
  have hscan : lexState.skipWhile ⟨s, pos⟩ isAtomChar = ⟨s, pos + (c :: rest).length⟩ := by
    unfold lexState.skipWhile
    rw [hs, skipWhileAux_stop isAtomChar (c :: rest) suf pos hall hdelim]
  have htok : getToken ⟨s, pos⟩ ⟨s, pos + (c :: rest).length⟩ = c :: rest := by
    unfold getToken
    rw [hs]
    simp [List.take_left]
  simp only [readF, hws, hcur, if_neg hhash, if_neg hlpar, if_neg hrpar, hscan, htok]

theorem readF_bool (f : Nat) (s : Str) (pos : Nat) (c1 : Char) (l : Str)
    (hs : s.drop pos = '#' :: c1 :: l) (hb : c1 = 't' ∨ c1 = 'f') :
    readF (f + 1) ⟨s, pos⟩ = .ok (.boolean (c1 = 't'), ⟨s, pos + 2⟩) := by
  have hcur : lexState.curr ⟨s, pos⟩ = some '#' := curr_of_drop s pos '#' _ hs
  have hws : lexState.skipWS ⟨s, pos⟩ = ⟨s, pos⟩ :=
    skipWS_noop s pos '#' (by rw [← hcur]; rfl) (by decide)
  have hd2 : s.drop (pos + 1) = c1 :: l :=
    drop_add_of_drop s pos 1 ['#'] (c1 :: l) hs rfl
  have hcur2 : lexState.curr ⟨s, pos + 1⟩ = some c1 := curr_of_drop s (pos + 1) c1 l hd2
  simp only [readF, hws, hcur, if_pos rfl, lexState.advance, hcur2]
  rcases hb with hb | hb
  · subst hb
    simp
  · subst hb
    simp

theorem prVal_head (v : val) (hv : readableV v = true) :
    ∃ c l, val.pr v = c :: l ∧ goIsSpace c = false ∧ c ≠ ')' := by
  cases v with
  | number i =>
    cases hpr : prInt i with
    | nil => exact absurd hpr (prInt_ne_nil i)
    | cons c l =>
      obtain ⟨h1, _, _, h4⟩ := prInt_head i c l hpr
      exact ⟨c, l, hpr, h1, h4⟩
  | boolean b =>
    cases b with
    | true => exact ⟨'#', ['t'], rfl, by decide, by decide⟩
    | false => exact ⟨'#', ['f'], rfl, by decide, by decide⟩
  | symbol n =>
    simp only [readableV, symOk, Bool.and_eq_true] at hv
    obtain ⟨⟨⟨hne, hnh⟩, hall⟩, hpn⟩ := hv
    cases hn : n with
    | nil => rw [hn] at hne; exact absurd hne (by simp)
    | cons c l =>
      subst hn
      have hc : isAtomChar c = true := by
        simp only [List.all_cons, Bool.and_eq_true] at hall
        exact hall.1
      obtain ⟨h1, _, h3⟩ := atom_char_parts c hc
      exact ⟨c, l, rfl, h1, h3⟩
  | sq s =>
    exact ⟨'(', seqv.prInner s, seqv.pr_eq_inner s, by decide, by decide⟩
  | builtin n fn => exact absurd hv (by simp [readableV])

theorem prVal_len_pos (v : val) (hv : readableV v = true) :
    1 ≤ (val.pr v).length := by
  obtain ⟨c, l, hpr, _, _⟩ := prVal_head v hv
  rw [hpr]
  simp

theorem prElems_delim (d : seqv) (suf : Str) (x : Char)
    (hx : (seqv.prElems d ++ ')' :: suf).head? = some x) : isAtomChar x = false := by
  cases d with
  | empty =>
    simp only [seqv.prElems, List.nil_append, List.head?_cons,
      Option.some.injEq] at hx
    rw [← hx]
    decide
  | cons b d2 =>
    simp only [seqv.prElems, List.cons_append, List.head?_cons,
      Option.some.injEq] at hx
    rw [← hx]
    decide

theorem prInner_len_cons (a : val) (d : seqv) :
    (seqv.prInner (.cons a d)).length =
      (val.pr a).length + ((seqv.prElems d).length + 1) := by
  simp [seqv.prInner]

theorem prElems_len_cons (b : val) (d : seqv) :
    (seqv.prElems (.cons b d)).length =
      1 + ((val.pr b).length + (seqv.prElems d).length) := by
  simp [seqv.prElems]
  omega

theorem pr_sq_len (s : seqv) :
    (val.pr (.sq s)).length = (seqv.prInner s).length + 1 := by
  show (seqv.pr s).length = _
  rw [seqv.pr_eq_inner]
  simp [Nat.add_comm]

mutual
theorem readPr_val (v : val) (hv : readableV v = true) (s : Str) (pos : Nat)
    (suf : Str) (hs : s.drop pos = val.pr v ++ suf)
    (hdelim : ∀ d, suf.head? = some d → isAtomChar d = false)
    (fuel : Nat) (hf : 2 * (val.pr v).length ≤ fuel + 1) :
    readF fuel ⟨s, pos⟩ = .ok (v, ⟨s, pos + (val.pr v).length⟩) := by
  obtain ⟨f, rfl⟩ : ∃ f, fuel = f + 1 := by
    have hlen := prVal_len_pos v hv
    cases fuel with
    | zero => omega
    | succ f => exact ⟨f, rfl⟩
  cases v with
  | number i =>
    cases hpr : prInt i with
    | nil => exact absurd hpr (prInt_ne_nil i)
    | cons c l =>
      have hall : (c :: l).all isAtomChar = true := by
        rw [← hpr]
        exact prInt_all_atom i
      have hhash : c ≠ '#' := (prInt_head i c l hpr).2.1
      have hs1 : s.drop pos = (c :: l) ++ suf := by
        rw [← hpr]
        exact hs
      rw [readF_token f s pos c l suf hs1 hall hhash hdelim]
      have hrange : -(2 ^ 63) ≤ i ∧ i < 2 ^ 63 := by
        simp only [readableV, Bool.and_eq_true, decide_eq_true_eq] at hv
        exact hv
      have hparse : goParseInt64 (c :: l) = some i := by
        rw [← hpr]
        exact prInt_parse i hrange.1 hrange.2
      rw [hparse]
      have hlen : (val.pr (.number i)).length = (c :: l).length := by
        show (prInt i).length = _
        rw [hpr]
      rw [show val.pr (.number i) = c :: l from hpr]
  | boolean b =>
    cases b with
    | true =>
      have hs1 : s.drop pos = '#' :: 't' :: suf := by
        simpa using hs
      have h := readF_bool f s pos 't' suf hs1 (Or.inl rfl)
      simpa using h
    | false =>
      have hs1 : s.drop pos = '#' :: 'f' :: suf := by
        simpa using hs
      have h := readF_bool f s pos 'f' suf hs1 (Or.inr rfl)
      simpa using h
  | symbol n =>
    have hsym : symOk n = true := hv
    simp only [symOk, Bool.and_eq_true] at hsym
    obtain ⟨⟨⟨hne, hnh⟩, hall⟩, hpn⟩ := hsym
    cases hn : n with
    | nil => rw [hn] at hne; exact absurd hne (by simp)
    | cons c l =>
      subst hn
      have hhash : c ≠ '#' := by
        simpa using hnh
      have hs1 : s.drop pos = (c :: l) ++ suf := hs
      rw [readF_token f s pos c l suf hs1 hall hhash hdelim]
      rw [show goParseInt64 (c :: l) = none from by
        cases hgp : goParseInt64 (c :: l) with
        | none => rfl
        | some m => rw [hgp] at hpn; exact absurd hpn (by simp)]
      rfl
  | builtin n fn => exact absurd hv (by simp [readableV])
  | sq sq1 =>
    have hs1 : s.drop pos = '(' :: (seqv.prInner sq1 ++ suf) := by
      rw [hs, show val.pr (.sq sq1) = '(' :: seqv.prInner sq1 from seqv.pr_eq_inner sq1]
      rfl
    have hcur : lexState.curr ⟨s, pos⟩ = some '(' := curr_of_drop s pos '(' _ hs1
    have hws : lexState.skipWS ⟨s, pos⟩ = ⟨s, pos⟩ :=
      skipWS_noop s pos '(' (by rw [← hcur]; rfl) (by decide)
    have hs2 : s.drop (pos + 1) = seqv.prInner sq1 ++ suf :=
      drop_add_of_drop s pos 1 ['('] _ (by simpa using hs1) rfl
    have hf2 : 2 * (seqv.prInner sq1).length ≤ f + 1 := by
      have := pr_sq_len sq1
      omega
    have hrec := readPr_inner sq1 hv s (pos + 1) suf hs2 f hf2
    simp only [readF, hws, hcur, if_neg (show ('(' : Char) ≠ '#' by decide),
      if_pos rfl, lexState.advance, hrec]
    have hlen : pos + 1 + (seqv.prInner sq1).length =
        pos + (val.pr (.sq sq1)).length := by
      have := pr_sq_len sq1
      omega
    rw [hlen]
    simp

theorem readPr_inner (sq1 : seqv) (hsq : readableS sq1 = true) (s : Str) (pos : Nat)
    (suf : Str) (hs : s.drop pos = seqv.prInner sq1 ++ suf)
    (fuel : Nat) (hf : 2 * (seqv.prInner sq1).length ≤ fuel + 1) :
    readSeqF fuel ⟨s, pos⟩ = .ok (sq1, ⟨s, pos + (seqv.prInner sq1).length⟩) := by
  cases sq1 with
  | empty =>
    obtain ⟨f, rfl⟩ : ∃ f, fuel = f + 1 := by
      cases fuel with
      | zero => simp [seqv.prInner] at hf
      | succ f => exact ⟨f, rfl⟩
    have hs1 : s.drop pos = ')' :: suf := by
      simpa [seqv.prInner] using hs
    have hcur : lexState.curr ⟨s, pos⟩ = some ')' := curr_of_drop s pos ')' _ hs1
    have hws : lexState.skipWS ⟨s, pos⟩ = ⟨s, pos⟩ :=
      skipWS_noop s pos ')' (by rw [← hcur]; rfl) (by decide)
    simp only [readSeqF, hws, hcur, if_pos rfl, lexState.advance]
    rfl
  | cons a d =>
    simp only [readableS, Bool.and_eq_true] at hsq
    obtain ⟨ha, hd⟩ := hsq
    obtain ⟨f, rfl⟩ : ∃ f, fuel = f + 1 := by
      have := prVal_len_pos a ha
      have := prInner_len_cons a d
      cases fuel with
      | zero => omega
      | succ f => exact ⟨f, rfl⟩
    obtain ⟨c, l, hpr, hnospace, hrpar⟩ := prVal_head a ha
    have hs1 : s.drop pos = val.pr a ++ (seqv.prElems d ++ ')' :: suf) := by
      rw [hs]
      simp [seqv.prInner]
    have hs1c : s.drop pos = c :: (l ++ (seqv.prElems d ++ ')' :: suf)) := by
      rw [hs1, hpr]
      rfl
    have hcur : lexState.curr ⟨s, pos⟩ = some c := curr_of_drop s pos c _ hs1c
    have hws : lexState.skipWS ⟨s, pos⟩ = ⟨s, pos⟩ :=
      skipWS_noop s pos c (by rw [← hcur]; rfl) hnospace
    have hfa : 2 * (val.pr a).length ≤ f + 1 := by
      have := prInner_len_cons a d
      omega
    have hra := readPr_val a ha s pos (seqv.prElems d ++ ')' :: suf) hs1
      (prElems_delim d suf) f hfa
    have hs3 : s.drop (pos + (val.pr a).length) = seqv.prElems d ++ ')' :: suf :=
      drop_add_of_drop s pos (val.pr a).length (val.pr a) _ hs1 rfl
    have hfd : 2 * (seqv.prElems d).length + 1 ≤ f := by
      have := prInner_len_cons a d
      have := prVal_len_pos a ha
      omega
    have hrd := readPr_elems d hd s (pos + (val.pr a).length) suf hs3 f hfd
    simp only [readSeqF, hws, hcur, if_neg hrpar, hra, hrd]
    have hlen : pos + (val.pr a).length + (seqv.prElems d).length + 1 =
        pos + (seqv.prInner (.cons a d)).length := by
      have := prInner_len_cons a d
      omega
    rw [hlen]

theorem readPr_elems (sq1 : seqv) (hsq : readableS sq1 = true) (s : Str) (pos : Nat)
    (suf : Str) (hs : s.drop pos = seqv.prElems sq1 ++ ')' :: suf)
    (fuel : Nat) (hf : 2 * (seqv.prElems sq1).length + 1 ≤ fuel) :
    readSeqF fuel ⟨s, pos⟩ =
      .ok (sq1, ⟨s, pos + (seqv.prElems sq1).length + 1⟩) := by
  cases sq1 with
  | empty =>
    obtain ⟨f, rfl⟩ : ∃ f, fuel = f + 1 := by
      cases fuel with
      | zero => omega
      | succ f => exact ⟨f, rfl⟩
    have hs1 : s.drop pos = ')' :: suf := by
      simpa [seqv.prElems] using hs
    have hcur : lexState.curr ⟨s, pos⟩ = some ')' := curr_of_drop s pos ')' _ hs1
    have hws : lexState.skipWS ⟨s, pos⟩ = ⟨s, pos⟩ :=
      skipWS_noop s pos ')' (by rw [← hcur]; rfl) (by decide)
    simp only [readSeqF, hws, hcur, if_pos rfl, lexState.advance]
    rfl
  | cons b d =>
    simp only [readableS, Bool.and_eq_true] at hsq
    obtain ⟨hb, hd⟩ := hsq
    obtain ⟨f, rfl⟩ : ∃ f, fuel = f + 1 := by
      cases fuel with
      | zero => omega
      | succ f => exact ⟨f, rfl⟩
    obtain ⟨c, l, hpr, hnospace, hrpar⟩ := prVal_head b hb
    have hs1 : s.drop pos = ' ' :: (val.pr b ++ (seqv.prElems d ++ ')' :: suf)) := by
      rw [hs]
      simp [seqv.prElems]
    have hs1c : s.drop pos = ' ' :: c :: (l ++ (seqv.prElems d ++ ')' :: suf)) := by
      rw [hs1, hpr]
      rfl
    have hws : lexState.skipWS ⟨s, pos⟩ = ⟨s, pos + 1⟩ :=
      skipWS_one_space s pos c _ hs1c hnospace
    have hs2 : s.drop (pos + 1) = val.pr b ++ (seqv.prElems d ++ ')' :: suf) :=
      drop_add_of_drop s pos 1 [' '] _ (by simpa using hs1) rfl
    have hs2c : s.drop (pos + 1) = c :: (l ++ (seqv.prElems d ++ ')' :: suf)) := by
      rw [hs2, hpr]
      rfl
    have hcur : lexState.curr ⟨s, pos + 1⟩ = some c := curr_of_drop s (pos + 1) c _ hs2c
    have hfb : 2 * (val.pr b).length ≤ f + 1 := by
      have := prElems_len_cons b d
      omega
    have hrb := readPr_val b hb s (pos + 1) (seqv.prElems d ++ ')' :: suf) hs2
      (prElems_delim d suf) f hfb
    have hs3 : s.drop (pos + 1 + (val.pr b).length) = seqv.prElems d ++ ')' :: suf :=
      drop_add_of_drop s (pos + 1) (val.pr b).length (val.pr b) _ hs2 rfl
    have hfd : 2 * (seqv.prElems d).length + 1 ≤ f := by
      have := prElems_len_cons b d
      have := prVal_len_pos b hb
      omega
    have hrd := readPr_elems d hd s (pos + 1 + (val.pr b).length) suf hs3 f hfd
    simp only [readSeqF, hws, hcur, if_neg hrpar, hrb, hrd]
    have hlen : pos + 1 + (val.pr b).length + (seqv.prElems d).length + 1 =
        pos + (seqv.prElems (.cons b d)).length + 1 := by
      have := prElems_len_cons b d
      omega
    rw [hlen]
end

mutual
theorem equal_refl_val (v : val) (hv : readableV v = true) :
    val.equal v v = .ok true := by
  cases v with
  | number i => simp [val.equal]
  | boolean b => simp [val.equal]
  | symbol n => simp [val.equal]
  | sq s => exact equal_refl_seq s hv
  | builtin n f => exact absurd hv (by simp [readableV])
theorem equal_refl_seq (s : seqv) (hs : readableS s = true) :
    seqv.equal s (.sq s) = .ok true := by
  cases s with
  | empty => rfl
  | cons a d =>
    simp only [readableS, Bool.and_eq_true] at hs
    have h1 := equal_refl_val a hs.1
    have h2 := equal_refl_seq d hs.2
    simp [seqv.equal, h1, h2]
end

/-- claim C8: every value the reader can return reads back from its own
canonical print form, and the re-read value is structurally equal to the
original (the `equal` methods return true on it). -/
theorem read_print_roundtrip (s : Str) (v : val) (h : readL s = .ok v) :
    readL (val.pr v) = .ok v ∧ val.equal v v = .ok true := by
  have hv : readableV v = true := by
    unfold readL at h
    cases hr : readF (2 * s.length + 4) ⟨s, 0⟩ with
    | error e => rw [hr] at h; exact absurd h (by simp)
    | ok p =>
      obtain ⟨w, ls'⟩ := p
      rw [hr] at h
      simp only [Except.ok.injEq] at h
      subst h
      exact (read_sound _).1 _ _ _ hr
  constructor
  · unfold readL
    have hdrop : (val.pr v).drop 0 = val.pr v ++ [] := by simp
    have hr := readPr_val v hv (val.pr v) 0 [] hdrop
      (fun d hd => by simp at hd) (2 * (val.pr v).length + 4) (by omega)
    rw [hr]
  · exact equal_refl_val v hv

/-- claim C8 (witness): a concrete nested form through the theorem. -/
theorem read_print_roundtrip_witness :
    readL "(1 (#t x))".toList =
      .ok (.sq (.cons (.number 1) (.cons (.sq (.cons (.boolean true)
        (.cons (.symbol "x".toList) .empty))) .empty))) ∧
    (readL (val.pr (.sq (.cons (.number 1) (.cons (.sq (.cons (.boolean true)
        (.cons (.symbol "x".toList) .empty))) .empty)))) =
      .ok (.sq (.cons (.number 1) (.cons (.sq (.cons (.boolean true)
        (.cons (.symbol "x".toList) .empty))) .empty))) ∧
     val.equal (.sq (.cons (.number 1) (.cons (.sq (.cons (.boolean true)
        (.cons (.symbol "x".toList) .empty))) .empty)))
       (.sq (.cons (.number 1) (.cons (.sq (.cons (.boolean true)
        (.cons (.symbol "x".toList) .empty))) .empty))) = .ok true) :=
  ⟨by decide, read_print_roundtrip "(1 (#t x))".toList _ (by decide)⟩
